import Mathlib

set_option maxRecDepth 8000

/-!
Verification of the crystal_index repository against its specification.

The definitions below are a shallow embedding of src/crystal_index/crystal.py.
Python integers become ℤ, Python/numpy floats become ℝ, numpy's non-raising
division by zero (1 / 0.0 = inf) is modelled in the extended interval [0, ∞],
and code paths that can fail (a fall-through return of None, a ValueError from
an enum lookup) are modelled with Option.
-/

/-- Sum of squares of an integer triple; embeds the sort key
sort_by_square_sum(t) = sum(square(t)) of get_possible_index_combinations. -/
def sqSum3 (t : ℤ × ℤ × ℤ) : ℤ := t.1 ^ 2 + t.2.1 ^ 2 + t.2.2 ^ 2

/-- Embeds itertools.combinations_with_replacement(range(n + 1), 3): every
triple (h, k, l) with 0 ≤ h ≤ k ≤ l ≤ n, enumerated in lexicographic order. -/
def cwr3 (n : ℕ) : List (ℤ × ℤ × ℤ) :=
  (List.range (n + 1)).flatMap fun h =>
    (List.range (n + 1 - h)).flatMap fun i =>
      (List.range (n + 1 - h - i)).map fun j =>
        ((h : ℤ), ((h + i : ℕ) : ℤ), ((h + i + j : ℕ) : ℤ))

/-- The comparison used by Python sorted(..., key=sort_by_square_sum):
non-strict comparison of the square sums. -/
def keyLe (a b : ℤ × ℤ × ℤ) : Prop := sqSum3 a ≤ sqSum3 b

instance : DecidableRel keyLe := fun a b =>
  inferInstanceAs (Decidable (sqSum3 a ≤ sqSum3 b))

/-- Embeds get_possible_index_combinations: sort the candidate triples by
square sum and drop the first element, which is (0, 0, 0). Python sorted is a
stable sort; insertion sort with the non-strict key comparison keyLe computes
the same stable result, so the two agree element by element. -/
def get_possible_index_combinations (largest_miller_index : ℕ) : List (ℤ × ℤ × ℤ) :=
  (List.insertionSort keyLe (cwr3 largest_miller_index)).drop 1

/-- Embeds the CrystalSystem enum. -/
inductive CrystalSystem where
  | FCC
  | BCC
  | SC
deriving DecidableEq

/-- Embeds the Python enum lookup CrystalSystem(value): an unrecognized
selector string raises ValueError (the spec's ConfigurationError), modelled as
none. -/
def CrystalSystem.fromValue (s : String) : Option CrystalSystem :=
  if s = "FCC" then some CrystalSystem.FCC
  else if s = "BCC" then some CrystalSystem.BCC
  else if s = "SC" then some CrystalSystem.SC
  else none

/-- Embeds the CrystalPlane class: the three Miller indices h, k, l. -/
structure CrystalPlane where
  h : ℤ
  k : ℤ
  l : ℤ
deriving DecidableEq

/-- Embeds the planenormal attribute array([h, k, l]) as a real 3-vector. -/
def CrystalPlane.planenormal (p : CrystalPlane) : ℝ × ℝ × ℝ :=
  ((p.h : ℝ), (p.k : ℝ), (p.l : ℝ))

/-- Dot product of two real 3-vectors; embeds numpy dot. -/
def dotv (a b : ℝ × ℝ × ℝ) : ℝ := a.1 * b.1 + a.2.1 * b.2.1 + a.2.2 * b.2.2

/-- Euclidean norm of a real 3-vector; embeds numpy.linalg.norm. -/
noncomputable def normv (v : ℝ × ℝ × ℝ) : ℝ := Real.sqrt (dotv v v)

/-- Embeds the nested unit_vector helper: componentwise division by the norm. -/
noncomputable def unit_vector (v : ℝ × ℝ × ℝ) : ℝ × ℝ × ℝ :=
  (v.1 / normv v, v.2.1 / normv v, v.2.2 / normv v)

/-- Embeds numpy.clip(x, -1.0, 1.0). -/
def clip1 (x : ℝ) : ℝ := min (max x (-1)) 1

/-- Embeds CrystalPlane.angle_between:
rad2deg(arccos(clip(dot(unit(p1), unit(p2)), -1, 1))). -/
noncomputable def CrystalPlane.angle_between (p1 p2 : CrystalPlane) : ℝ :=
  Real.arccos (clip1 (dotv (unit_vector (CrystalPlane.planenormal p1))
      (unit_vector (CrystalPlane.planenormal p2)))) * (180 / Real.pi)

/-- Embeds CrystalPlane.get_zone_axis: the integer cross product of the two
Miller-index vectors (numpy.cross on the integer index arrays). -/
def CrystalPlane.get_zone_axis (p1 p2 : CrystalPlane) : ℤ × ℤ × ℤ :=
  (p1.k * p2.l - p1.l * p2.k, p1.l * p2.h - p1.h * p2.l, p1.h * p2.k - p1.k * p2.h)

/-- Embeds CrystalPlane.get_d_spacing, 1 / linalg.norm(planenormal). numpy
float division by zero yields inf without raising, so the value is taken in
the extended nonnegative reals, where 1 / 0 = ∞ gives exactly that reading. -/
noncomputable def CrystalPlane.get_d_spacing (p : CrystalPlane) : ENNReal :=
  1 / ENNReal.ofReal (normv (CrystalPlane.planenormal p))

/-- Embeds itertools.permutations([h, k, l]): the six positional permutations
in itertools enumeration order, duplicates kept. -/
def perms3 (h k l : ℤ) : List (ℤ × ℤ × ℤ) :=
  [(h, k, l), (h, l, k), (k, h, l), (k, l, h), (l, h, k), (l, k, h)]

/-- Embeds itertools.product([1, -1], repeat=3) in enumeration order. -/
def signVariants : List (ℤ × ℤ × ℤ) :=
  [(1, 1, 1), (1, 1, -1), (1, -1, 1), (1, -1, -1),
    (-1, 1, 1), (-1, 1, -1), (-1, -1, 1), (-1, -1, -1)]

/-- Embeds CrystalPlane.get_equivalent_planes: the broadcast product
possible_miller_indices[:, newaxis, :] * sign_variants reshaped row-major,
that is permutation-major and sign-minor, with no deduplication. -/
def CrystalPlane.get_equivalent_planes (p : CrystalPlane) : List CrystalPlane :=
  (perms3 p.h p.k p.l).flatMap fun t =>
    signVariants.map fun s => ⟨t.1 * s.1, t.2.1 * s.2.1, t.2.2 * s.2.2⟩

/-- Embeds the class attribute HKL_LIST = get_possible_index_combinations(5). -/
def HKL_LIST : List (ℤ × ℤ × ℤ) := get_possible_index_combinations 5

/-- The CrystalPlane(h, k, l) value appended by the loops of
Crystal.get_planes. -/
def planeOfTriple (t : ℤ × ℤ × ℤ) : CrystalPlane := ⟨t.1, t.2.1, t.2.2⟩

/-- Embeds the SC branch of Crystal.get_planes: the length test runs before
the append; falling off the end of the candidate list is Python's implicit
return None. -/
def scLoop (order : ℕ) : List (ℤ × ℤ × ℤ) → List CrystalPlane → Option (List CrystalPlane)
  | [], _ => none
  | t :: ts, acc =>
    if acc.length = order then some acc else scLoop order ts (acc ++ [planeOfTriple t])

/-- Embeds the BCC and FCC branches of Crystal.get_planes: the acceptance test
runs first, then the length test; falling off the end of the candidate list is
Python's implicit return None. -/
def ccLoop (accept : (ℤ × ℤ × ℤ) → Bool) (order : ℕ) :
    List (ℤ × ℤ × ℤ) → List CrystalPlane → Option (List CrystalPlane)
  | [], _ => none
  | t :: ts, acc =>
    let acc' := if accept t then acc ++ [planeOfTriple t] else acc
    if acc'.length = order then some acc' else ccLoop accept order ts acc'

/-- Embeds is_even(h + k + l), the BCC acceptance rule of Crystal.get_planes. -/
def bccAccept (t : ℤ × ℤ × ℤ) : Bool := (t.1 + t.2.1 + t.2.2) % 2 == 0

/-- Embeds the FCC acceptance rule of Crystal.get_planes: all three indices
even, or all three odd. -/
def fccAccept (t : ℤ × ℤ × ℤ) : Bool :=
  (t.1 % 2 == 0 && t.2.1 % 2 == 0 && t.2.2 % 2 == 0) ||
    (!(t.1 % 2 == 0) && !(t.2.1 % 2 == 0) && !(t.2.2 % 2 == 0))

/-- Embeds Crystal.get_planes. -/
def get_planes (crystal_system : CrystalSystem) (order : ℕ) : Option (List CrystalPlane) :=
  match crystal_system with
  | CrystalSystem.SC => scLoop order HKL_LIST []
  | CrystalSystem.BCC => ccLoop bccAccept order HKL_LIST []
  | CrystalSystem.FCC => ccLoop fccAccept order HKL_LIST []

/-- The per-system acceptance predicate of Crystal.get_planes as a function;
the SC branch accepts every candidate. -/
def acceptOf : CrystalSystem → (ℤ × ℤ × ℤ) → Bool
  | CrystalSystem.SC => fun _ => true
  | CrystalSystem.BCC => bccAccept
  | CrystalSystem.FCC => fccAccept

/-- Embeds the Crystal class: the constructor stores the system and the order
and runs get_planes, whose possible fall-through None is kept as an Option. -/
structure Crystal where
  crystal_system : CrystalSystem
  order : ℕ
  planes : Option (List CrystalPlane)

/-- Embeds Crystal.__init__ for an already-typed CrystalSystem argument. -/
def Crystal.make (crystal_system : CrystalSystem) (order : ℕ) : Crystal :=
  ⟨crystal_system, order, get_planes crystal_system order⟩

/-- Embeds Crystal.__init__ for a string selector: CrystalSystem(value) raises
ValueError on an unrecognized string, so no Crystal value is produced. -/
def Crystal.ofString (s : String) (order : ℕ) : Option Crystal :=
  (CrystalSystem.fromValue s).map fun sys => Crystal.make sys order

/-- Embeds itertools.combinations(l, 2) in its enumeration order. -/
def combinations2 {α : Type} : List α → List (α × α)
  | [] => []
  | x :: xs => (xs.map fun y => (x, y)) ++ combinations2 xs

/-- Embeds the body of Crystal.get_d_ratio on a given plane list: the
d-spacing quotient paired with the plane pair, over combinations(planes, 2). -/
noncomputable def get_d_ratio_list (ps : List CrystalPlane) :
    List (ENNReal × (CrystalPlane × CrystalPlane)) :=
  (combinations2 ps).map fun pair =>
    (CrystalPlane.get_d_spacing pair.1 / CrystalPlane.get_d_spacing pair.2, pair)

/-- The match record the spec calls MatchResult: the two planes printed by
find_pairs together with their zone axis. -/
structure MatchResult where
  plane1 : CrystalPlane
  plane2 : CrystalPlane
  zone : ℤ × ℤ × ℤ
deriving DecidableEq

/-- The tolerance test lower_limit < ratio < higher_limit of
Crystal.find_pairs, with lower_limit = space_ratio * 0.8 and
higher_limit = space_ratio * 1.2. -/
def ratioBand (space_ratio x : ENNReal) : Prop :=
  space_ratio * ENNReal.ofReal 0.8 < x ∧ x < space_ratio * ENNReal.ofReal 1.2

/-- Embeds the possible_pairs selection inside Crystal.find_pairs: keep the
pairs whose d-spacing quotient lies strictly inside the tolerance band. -/
noncomputable def possible_pairs (ps : List CrystalPlane) (space_ratio : ENNReal) :
    List (CrystalPlane × CrystalPlane) :=
  ((get_d_ratio_list ps).filter fun i =>
      @decide (ratioBand space_ratio i.1) (Classical.propDecidable _)).map Prod.snd

/-- One iteration of the outer loop of Crystal.find_pairs: scan the
equivalent-plane orbit of the second plane in its fixed enumeration order and
emit the first member whose angle to the first plane is strictly below the
threshold, together with the zone axis; the break makes at most one match per
pair. -/
noncomputable def matchOf (angle : ℝ) (pair : CrystalPlane × CrystalPlane) :
    Option MatchResult :=
  ((CrystalPlane.get_equivalent_planes pair.2).find? fun v2 =>
      @decide (CrystalPlane.angle_between pair.1 v2 < angle)
        (Classical.propDecidable _)).map
    fun v2 => ⟨pair.1, v2, CrystalPlane.get_zone_axis pair.1 v2⟩

/-- Embeds Crystal.find_pairs on a plane list: the sequence of matches the
Python loop prints, in loop order. -/
noncomputable def find_pairs_list (ps : List CrystalPlane) (space_ratio : ENNReal)
    (angle : ℝ) : List MatchResult :=
  (possible_pairs ps space_ratio).filterMap (matchOf angle)

/-- Embeds Crystal.find_pairs; the Python method fails when planes is None. -/
noncomputable def Crystal.find_pairs (c : Crystal) (space_ratio : ENNReal) (angle : ℝ) :
    Option (List MatchResult) :=
  c.planes.map fun ps => find_pairs_list ps space_ratio angle

/-- Strict lexicographic order on integer triples: the enumeration order of
cwr3. -/
def lex3 (a b : ℤ × ℤ × ℤ) : Prop :=
  a.1 < b.1 ∨ (a.1 = b.1 ∧ (a.2.1 < b.2.1 ∨ (a.2.1 = b.2.1 ∧ a.2.2 < b.2.2)))

instance : DecidableRel lex3 := fun a b => by
  unfold lex3
  infer_instance

/-- The order in which get_possible_index_combinations lists its output:
strictly ascending square sum, ties in the lexicographic generation order. -/
def keyThenLex (a b : ℤ × ℤ × ℤ) : Prop :=
  sqSum3 a < sqSum3 b ∨ (sqSum3 a = sqSum3 b ∧ lex3 a b)

/-- Square sum of a plane's Miller indices, the quantity h² + k² + l² that the
d-spacing and the symmetry orbit preserve. -/
def CrystalPlane.sqSum (p : CrystalPlane) : ℤ := p.h ^ 2 + p.k ^ 2 + p.l ^ 2

theorem normv_planenormal (p : CrystalPlane) :
    normv (CrystalPlane.planenormal p) = Real.sqrt ((CrystalPlane.sqSum p : ℝ)) := by
  unfold normv CrystalPlane.planenormal dotv CrystalPlane.sqSum
  push_cast
  ring_nf

theorem get_d_spacing_eq_sqrt (p : CrystalPlane) :
    CrystalPlane.get_d_spacing p =
      1 / ENNReal.ofReal (Real.sqrt ((CrystalPlane.sqSum p : ℝ))) := by
  unfold CrystalPlane.get_d_spacing
  rw [normv_planenormal]

theorem sqSum_pos_of_ne_zero {p : CrystalPlane} (hp : ¬(p.h = 0 ∧ p.k = 0 ∧ p.l = 0)) :
    0 < CrystalPlane.sqSum p := by
  unfold CrystalPlane.sqSum
  by_contra hle
  push_neg at hle
  have hh : p.h ^ 2 = 0 :=
    le_antisymm (by nlinarith [sq_nonneg p.k, sq_nonneg p.l]) (sq_nonneg p.h)
  have hk : p.k ^ 2 = 0 :=
    le_antisymm (by nlinarith [sq_nonneg p.h, sq_nonneg p.l]) (sq_nonneg p.k)
  have hl : p.l ^ 2 = 0 :=
    le_antisymm (by nlinarith [sq_nonneg p.h, sq_nonneg p.k]) (sq_nonneg p.l)
  exact hp ⟨pow_eq_zero_iff two_ne_zero |>.1 hh,
    pow_eq_zero_iff two_ne_zero |>.1 hk,
    pow_eq_zero_iff two_ne_zero |>.1 hl⟩

theorem sqSum_of_mem_equivalent {p q : CrystalPlane}
    (hq : q ∈ CrystalPlane.get_equivalent_planes p) :
    CrystalPlane.sqSum q = CrystalPlane.sqSum p := by
  rcases List.mem_flatMap.1 hq with ⟨t, ht, hq2⟩
  rcases List.mem_map.1 hq2 with ⟨s, hs, rfl⟩
  unfold perms3 at ht
  unfold signVariants at hs
  fin_cases ht <;> fin_cases hs <;>
    simp only [CrystalPlane.sqSum] <;> ring_nf

/-- C1: the claim states that when the acceptance filter runs out of
candidates before collecting the requested order, Crystal.get_planes still
returns the sequence collected so far and never an absent result. The code
instead falls off the end of its loop and returns Python None; evaluating the
embedding at crystal system SC with order 56 (the candidate list holds 55
triples) yields none rather than the truncated 55-plane sequence, so the
construction leaves Crystal.planes with no sequence at all. -/
theorem C1_get_planes_falls_through_to_none :
    get_planes CrystalSystem.SC 56 = none := by decide

/-- C8: for every plane, the equivalent-plane enumeration has exactly 48
entries, the 6 list permutations crossed with the 8 sign combinations, with no
deduplication: the count is 48 even when the triple has repeated or zero
components. -/
theorem C8_equivalent_planes_length (p : CrystalPlane) :
    (CrystalPlane.get_equivalent_planes p).length = 48 := rfl

/-- C9: constructing a Crystal from a selector string produces no value
exactly when the string is none of the recognized values FCC, BCC and SC; the
embedded ValueError of the enum lookup (the spec's ConfigurationError) is the
none result, fatal to the construction attempt. -/
theorem C9_ofString_none_iff (s : String) (order : ℕ) :
    Crystal.ofString s order = none ↔ (s ≠ "FCC" ∧ s ≠ "BCC" ∧ s ≠ "SC") := by
  unfold Crystal.ofString CrystalSystem.fromValue
  split_ifs with h1 h2 h3 <;> simp_all

/-- C3 counterexample: the claim asserts that d-spacing fails with a
DomainError when h = k = l = 0. In the code the computation is a numpy float
division, which divides 1 by 0.0 and returns inf without raising; the
embedding accordingly returns the value ∞ at (0, 0, 0), a value and not a
failure, refuting the claimed error behavior. -/
theorem C3_zero_plane_returns_infinity :
    CrystalPlane.get_d_spacing (CrystalPlane.mk 0 0 0) = ⊤ := by
  rw [get_d_spacing_eq_sqrt]
  norm_num [CrystalPlane.sqSum]

/-- C3 amended: get_d_spacing never raises; for every (h, k, l) ≠ (0, 0, 0) it
returns 1 / sqrt(h² + k² + l²), and at (0, 0, 0) the numpy division by zero
yields the infinite value instead of a DomainError. -/
theorem C3_d_spacing_amended :
    CrystalPlane.get_d_spacing (CrystalPlane.mk 0 0 0) = ⊤ ∧
    ∀ p : CrystalPlane, ¬(p.h = 0 ∧ p.k = 0 ∧ p.l = 0) →
      CrystalPlane.get_d_spacing p =
        ENNReal.ofReal (1 / Real.sqrt ((CrystalPlane.sqSum p : ℝ))) := by
  constructor
  · exact C3_zero_plane_returns_infinity
  · intro p hp
    have hpos : (0 : ℝ) < (CrystalPlane.sqSum p : ℝ) := by
      exact_mod_cast sqSum_pos_of_ne_zero hp
    have hs : (0 : ℝ) < Real.sqrt ((CrystalPlane.sqSum p : ℝ)) := Real.sqrt_pos.2 hpos
    rw [get_d_spacing_eq_sqrt, one_div, one_div, ← ENNReal.ofReal_inv_of_pos hs]

theorem C3_d_spacing_amended_witness :
    ¬((1 : ℤ) = 0 ∧ (1 : ℤ) = 0 ∧ (1 : ℤ) = 0) ∧
    CrystalPlane.get_d_spacing (CrystalPlane.mk 1 1 1) =
      ENNReal.ofReal (1 / Real.sqrt ((CrystalPlane.sqSum (CrystalPlane.mk 1 1 1) : ℝ))) :=
  ⟨by decide, C3_d_spacing_amended.2 (CrystalPlane.mk 1 1 1) (by decide)⟩

/-- C10: every member of a plane's equivalent-plane orbit has the same
d-spacing as the plane itself, because permutations and sign changes preserve
the square sum h² + k² + l²; consequently replacing the second plane of a
retained pair by any member of its orbit never changes the d-spacing ratio
that qualified the pair. -/
theorem C10_orbit_preserves_d_spacing (p : CrystalPlane)
    (hp : ¬(p.h = 0 ∧ p.k = 0 ∧ p.l = 0)) (q : CrystalPlane)
    (hq : q ∈ CrystalPlane.get_equivalent_planes p) :
    CrystalPlane.get_d_spacing q = CrystalPlane.get_d_spacing p ∧
    ∀ p1 : CrystalPlane,
      CrystalPlane.get_d_spacing p1 / CrystalPlane.get_d_spacing q =
        CrystalPlane.get_d_spacing p1 / CrystalPlane.get_d_spacing p := by
  have hss := sqSum_of_mem_equivalent hq
  have hd : CrystalPlane.get_d_spacing q = CrystalPlane.get_d_spacing p := by
    rw [get_d_spacing_eq_sqrt, get_d_spacing_eq_sqrt, hss]
  exact ⟨hd, fun p1 => by rw [hd]⟩

theorem C10_orbit_preserves_d_spacing_witness :
    CrystalPlane.get_d_spacing (CrystalPlane.mk 1 2 (-3)) =
      CrystalPlane.get_d_spacing (CrystalPlane.mk 1 2 3) ∧
    ∀ p1 : CrystalPlane,
      CrystalPlane.get_d_spacing p1 / CrystalPlane.get_d_spacing (CrystalPlane.mk 1 2 (-3)) =
        CrystalPlane.get_d_spacing p1 / CrystalPlane.get_d_spacing (CrystalPlane.mk 1 2 3) :=
  C10_orbit_preserves_d_spacing (CrystalPlane.mk 1 2 3) (by decide)
    (CrystalPlane.mk 1 2 (-3)) (by decide)

theorem scLoop_overshoot (order : ℕ) (ts : List (ℤ × ℤ × ℤ)) (acc : List CrystalPlane)
    (h : order < acc.length) : scLoop order ts acc = none := by
  induction ts generalizing acc with
  | nil => rfl
  | cons t ts ih =>
    unfold scLoop
    rw [if_neg (by omega)]
    exact ih _ (by simp; omega)

theorem scLoop_some (order : ℕ) (ts : List (ℤ × ℤ × ℤ)) (acc ps : List CrystalPlane)
    (hle : acc.length ≤ order) (h : scLoop order ts acc = some ps) :
    ps = acc ++ (ts.take (order - acc.length)).map planeOfTriple := by
  induction ts generalizing acc with
  | nil => simp [scLoop] at h
  | cons t ts ih =>
    unfold scLoop at h
    by_cases heq : acc.length = order
    · rw [if_pos heq] at h
      cases h
      simp [heq]
    · rw [if_neg heq] at h
      have hlt : acc.length < order := lt_of_le_of_ne hle heq
      have hrec := ih (acc ++ [planeOfTriple t]) (by simp; omega) h
      rw [hrec]
      have hn : order - acc.length = (order - (acc ++ [planeOfTriple t]).length) + 1 := by
        simp only [List.length_append, List.length_cons, List.length_nil]
        omega
      rw [hn, List.take_succ_cons, List.map_cons]
      simp

theorem ccLoop_overshoot (accept : (ℤ × ℤ × ℤ) → Bool) (order : ℕ)
    (ts : List (ℤ × ℤ × ℤ)) (acc : List CrystalPlane) (h : order < acc.length) :
    ccLoop accept order ts acc = none := by
  induction ts generalizing acc with
  | nil => rfl
  | cons t ts ih =>
    unfold ccLoop
    cases ha : accept t with
    | true =>
      simp only [ha, if_true]
      rw [if_neg (by simp; omega)]
      exact ih _ (by simp; omega)
    | false =>
      simp only [ha, Bool.false_eq_true, if_false]
      rw [if_neg (by omega)]
      exact ih _ h

theorem ccLoop_some (accept : (ℤ × ℤ × ℤ) → Bool) (order : ℕ)
    (ts : List (ℤ × ℤ × ℤ)) (acc ps : List CrystalPlane) (hle : acc.length ≤ order)
    (h : ccLoop accept order ts acc = some ps) :
    ps = acc ++ ((ts.filter accept).take (order - acc.length)).map planeOfTriple := by
  induction ts generalizing acc with
  | nil => simp [ccLoop] at h
  | cons t ts ih =>
    unfold ccLoop at h
    cases ha : accept t with
    | true =>
      simp only [ha, if_true] at h
      by_cases heq : (acc ++ [planeOfTriple t]).length = order
      · rw [if_pos heq] at h
        cases h
        simp only [List.length_append, List.length_cons, List.length_nil] at heq
        have hn : order - acc.length = 1 := by omega
        rw [List.filter_cons_of_pos ha, hn, List.take_succ_cons, List.take_zero,
          List.map_cons, List.map_nil]
      · rw [if_neg heq] at h
        simp only [List.length_append, List.length_cons, List.length_nil] at heq
        rcases lt_or_eq_of_le hle with hlt | hEq
        · have hrec := ih (acc ++ [planeOfTriple t]) (by simp; omega) h
          rw [hrec, List.filter_cons_of_pos ha]
          have hn : order - acc.length = (order - (acc ++ [planeOfTriple t]).length) + 1 := by
            simp only [List.length_append, List.length_cons, List.length_nil]
            omega
          rw [hn, List.take_succ_cons, List.map_cons]
          simp
        · exfalso
          rw [ccLoop_overshoot accept order ts _ (by simp; omega)] at h
          cases h
    | false =>
      simp only [ha, Bool.false_eq_true, if_false] at h
      have hf : List.filter accept (t :: ts) = List.filter accept ts :=
        List.filter_cons_of_neg (by simp [ha])
      by_cases heq : acc.length = order
      · rw [if_pos heq] at h
        cases h
        simp [hf, heq]
      · rw [if_neg heq] at h
        have hrec := ih acc hle h
        rw [hrec, hf]

/-- C6: whenever Crystal.get_planes returns a plane sequence, that sequence is
exactly the accepted candidates of the ordered candidate list, in input order,
truncated at order; and the acceptance rules are: BCC accepts exactly the
triples with even h + k + l, FCC accepts exactly the triples whose three
indices are all even or all odd, and SC accepts every candidate. -/
theorem C6_selector_characterization (crystal_system : CrystalSystem) (order : ℕ)
    (ps : List CrystalPlane) (h : get_planes crystal_system order = some ps) :
    ps = ((HKL_LIST.filter (acceptOf crystal_system)).take order).map planeOfTriple ∧
    (∀ t : ℤ × ℤ × ℤ, acceptOf CrystalSystem.BCC t = true ↔ 2 ∣ (t.1 + t.2.1 + t.2.2)) ∧
    (∀ t : ℤ × ℤ × ℤ, acceptOf CrystalSystem.FCC t = true ↔
      ((2 ∣ t.1 ∧ 2 ∣ t.2.1 ∧ 2 ∣ t.2.2) ∨ (¬2 ∣ t.1 ∧ ¬2 ∣ t.2.1 ∧ ¬2 ∣ t.2.2))) ∧
    (∀ t : ℤ × ℤ × ℤ, acceptOf CrystalSystem.SC t = true) := by
  refine ⟨?_, ?_, ?_, ?_⟩
  · cases crystal_system with
    | SC =>
      have := scLoop_some order HKL_LIST [] ps (by simp) h
      simpa [acceptOf, List.filter_true] using this
    | BCC =>
      have := ccLoop_some bccAccept order HKL_LIST [] ps (by simp) h
      simpa [acceptOf] using this
    | FCC =>
      have := ccLoop_some fccAccept order HKL_LIST [] ps (by simp) h
      simpa [acceptOf] using this
  · intro t
    simp only [acceptOf, bccAccept, beq_iff_eq]
    omega
  · intro t
    simp only [acceptOf, fccAccept, Bool.or_eq_true, Bool.and_eq_true, beq_iff_eq,
      Bool.not_eq_true', beq_eq_false_iff_ne, ne_eq]
    omega
  · intro t
    rfl

theorem C6_selector_characterization_witness :
    [CrystalPlane.mk 1 1 1, CrystalPlane.mk 0 0 2, CrystalPlane.mk 0 2 2,
        CrystalPlane.mk 1 1 3, CrystalPlane.mk 2 2 2, CrystalPlane.mk 0 0 4,
        CrystalPlane.mk 1 3 3, CrystalPlane.mk 0 2 4] =
      ((HKL_LIST.filter (acceptOf CrystalSystem.FCC)).take 8).map planeOfTriple ∧
    (∀ t : ℤ × ℤ × ℤ, acceptOf CrystalSystem.BCC t = true ↔ 2 ∣ (t.1 + t.2.1 + t.2.2)) ∧
    (∀ t : ℤ × ℤ × ℤ, acceptOf CrystalSystem.FCC t = true ↔
      ((2 ∣ t.1 ∧ 2 ∣ t.2.1 ∧ 2 ∣ t.2.2) ∨ (¬2 ∣ t.1 ∧ ¬2 ∣ t.2.1 ∧ ¬2 ∣ t.2.2))) ∧
    (∀ t : ℤ × ℤ × ℤ, acceptOf CrystalSystem.SC t = true) :=
  C6_selector_characterization CrystalSystem.FCC 8
    [CrystalPlane.mk 1 1 1, CrystalPlane.mk 0 0 2, CrystalPlane.mk 0 2 2,
      CrystalPlane.mk 1 1 3, CrystalPlane.mk 2 2 2, CrystalPlane.mk 0 0 4,
      CrystalPlane.mk 1 3 3, CrystalPlane.mk 0 2 4] (by decide)

theorem sqSum3_nonneg (t : ℤ × ℤ × ℤ) : 0 ≤ sqSum3 t := by
  unfold sqSum3
  positivity

theorem sqSum3_eq_zero {t : ℤ × ℤ × ℤ} (h : sqSum3 t = 0) : t = (0, 0, 0) := by
  obtain ⟨a, b, c⟩ := t
  unfold sqSum3 at h
  simp only [Prod.mk.injEq]
  have ha : a ^ 2 = 0 :=
    le_antisymm (by nlinarith [sq_nonneg b, sq_nonneg c]) (sq_nonneg a)
  have hb : b ^ 2 = 0 :=
    le_antisymm (by nlinarith [sq_nonneg a, sq_nonneg c]) (sq_nonneg b)
  have hc : c ^ 2 = 0 :=
    le_antisymm (by nlinarith [sq_nonneg a, sq_nonneg b]) (sq_nonneg c)
  exact ⟨pow_eq_zero_iff two_ne_zero |>.1 ha,
    pow_eq_zero_iff two_ne_zero |>.1 hb,
    pow_eq_zero_iff two_ne_zero |>.1 hc⟩

theorem mem_cwr3 (n : ℕ) (t : ℤ × ℤ × ℤ) :
    t ∈ cwr3 n ↔ 0 ≤ t.1 ∧ t.1 ≤ t.2.1 ∧ t.2.1 ≤ t.2.2 ∧ t.2.2 ≤ (n : ℤ) := by
  obtain ⟨a, b, c⟩ := t
  unfold cwr3
  simp only [List.mem_flatMap, List.mem_map, List.mem_range]
  constructor
  · rintro ⟨h, hh, x⟩
    rcases x with ⟨i, hi, j, hj, hEq⟩
    simp only [Prod.mk.injEq] at hEq
    obtain ⟨e1, e2, e3⟩ := hEq
    omega
  · rintro ⟨h0, h12, h23, h3n⟩
    refine ⟨a.toNat, by omega, (b - a).toNat, by omega, (c - b).toNat, by omega, ?_⟩
    simp only [Prod.mk.injEq]
    omega

theorem keyThenLex_le {x y : ℤ × ℤ × ℤ} (h : keyThenLex x y) : sqSum3 x ≤ sqSum3 y := by
  rcases h with h | ⟨h, _⟩
  · exact le_of_lt h
  · exact le_of_eq h

theorem pairwise_lex3_cwr3 (n : ℕ) : (cwr3 n).Pairwise lex3 := by
  unfold cwr3
  rw [List.pairwise_flatMap]
  constructor
  · intro h hh
    rw [List.pairwise_flatMap]
    constructor
    · intro i hi
      rw [List.pairwise_map]
      refine List.Pairwise.imp ?_ (List.pairwise_lt_range _)
      intro x y hxy
      unfold lex3
      dsimp only
      omega
    · refine List.Pairwise.imp ?_ (List.pairwise_lt_range _)
      intro i1 i2 h12 x hx y hy
      rcases List.mem_map.1 hx with ⟨j1, hj1, rfl⟩
      rcases List.mem_map.1 hy with ⟨j2, hj2, rfl⟩
      unfold lex3
      dsimp only
      omega
  · refine List.Pairwise.imp ?_ (List.pairwise_lt_range _)
    intro h1 h2 hlt x hx y hy
    rcases List.mem_flatMap.1 hx with ⟨i1, hi1, hx2⟩
    rcases List.mem_map.1 hx2 with ⟨j1, hj1, rfl⟩
    rcases List.mem_flatMap.1 hy with ⟨i2, hi2, hy2⟩
    rcases List.mem_map.1 hy2 with ⟨j2, hj2, rfl⟩
    unfold lex3
    dsimp only
    omega

theorem orderedInsert_keyThenLex {a : ℤ × ℤ × ℤ} {l' : List (ℤ × ℤ × ℤ)}
    (hl : l'.Pairwise keyThenLex) (hlex : ∀ b ∈ l', lex3 a b) :
    (l'.orderedInsert keyLe a).Pairwise keyThenLex := by
  induction l' with
  | nil => simp [List.orderedInsert]
  | cons b l ih =>
    unfold List.orderedInsert
    by_cases hab : keyLe a b
    · rw [if_pos hab]
      rw [List.pairwise_cons]
      refine ⟨?_, hl⟩
      intro c hc
      have hlex_c : lex3 a c := hlex c hc
      have hkey_c : sqSum3 a ≤ sqSum3 c := by
        rcases List.mem_cons.1 hc with rfl | hc2
        · exact hab
        · exact le_trans hab (keyThenLex_le ((List.pairwise_cons.1 hl).1 c hc2))
      rcases lt_or_eq_of_le hkey_c with hlt | hEq
      · exact Or.inl hlt
      · exact Or.inr ⟨hEq, hlex_c⟩
    · rw [if_neg hab]
      have hba : sqSum3 b < sqSum3 a := lt_of_not_le hab
      rw [List.pairwise_cons]
      constructor
      · intro c hc
        rcases (List.mem_orderedInsert keyLe).1 hc with rfl | hc2
        · exact Or.inl hba
        · exact (List.pairwise_cons.1 hl).1 c hc2
      · exact ih (List.pairwise_cons.1 hl).2
          fun c hc => hlex c (List.mem_cons_of_mem _ hc)

theorem pairwise_keyThenLex_insertionSort {l : List (ℤ × ℤ × ℤ)}
    (h : l.Pairwise lex3) :
    (List.insertionSort keyLe l).Pairwise keyThenLex := by
  induction l with
  | nil => exact List.Pairwise.nil
  | cons a l ih =>
    rw [List.insertionSort]
    have h' := List.pairwise_cons.1 h
    apply orderedInsert_keyThenLex (ih h'.2)
    intro b hb
    exact h'.1 b ((List.mem_insertionSort keyLe).1 hb)

theorem insertionSort_cwr3_eq_cons (n : ℕ) :
    List.insertionSort keyLe (cwr3 n) = (0, 0, 0) :: get_possible_index_combinations n := by
  have hmem : ((0, 0, 0) : ℤ × ℤ × ℤ) ∈ List.insertionSort keyLe (cwr3 n) := by
    rw [List.mem_insertionSort, mem_cwr3]
    refine ⟨le_refl 0, le_refl 0, le_refl 0, by positivity⟩
  cases hs : List.insertionSort keyLe (cwr3 n) with
  | nil =>
    rw [hs] at hmem
    cases hmem
  | cons z rest =>
    have hpair : (z :: rest).Pairwise keyThenLex :=
      hs ▸ pairwise_keyThenLex_insertionSort (pairwise_lex3_cwr3 n)
    have hz : z = (0, 0, 0) := by
      rw [hs] at hmem
      rcases List.mem_cons.1 hmem with h | hmem2
      · exact h.symm
      · have hrel := (List.pairwise_cons.1 hpair).1 _ hmem2
        rcases hrel with hlt | ⟨hEq, hlex⟩
        · exfalso
          have hnn := sqSum3_nonneg z
          have h0 : sqSum3 ((0, 0, 0) : ℤ × ℤ × ℤ) = 0 := by decide
          omega
        · exact sqSum3_eq_zero (by rw [hEq]; decide)
    subst hz
    unfold get_possible_index_combinations
    rw [hs]
    rfl

/-- C7: the index generator returns exactly the triples (h, k, l) with
0 ≤ h ≤ k ≤ l ≤ max_index other than (0, 0, 0), listed in strictly ascending
square sum with ties in the lexicographic generation order (the order a stable
sort leaves the lexicographic enumeration in); in particular the max_index = 2
output is the expected 9-element literal list and the max_index = 5 output has
exactly 55 triples. -/
theorem C7_index_generator (n : ℕ) :
    (get_possible_index_combinations n).Pairwise keyThenLex ∧
    (∀ t : ℤ × ℤ × ℤ, t ∈ get_possible_index_combinations n ↔
      (0 ≤ t.1 ∧ t.1 ≤ t.2.1 ∧ t.2.1 ≤ t.2.2 ∧ t.2.2 ≤ (n : ℤ) ∧ t ≠ (0, 0, 0))) ∧
    get_possible_index_combinations 2 =
      [(0, 0, 1), (0, 1, 1), (1, 1, 1), (0, 0, 2), (0, 1, 2), (1, 1, 2),
        (0, 2, 2), (1, 2, 2), (2, 2, 2)] ∧
    (get_possible_index_combinations 5).length = 55 := by
  have hpair := pairwise_keyThenLex_insertionSort (pairwise_lex3_cwr3 n)
  rw [insertionSort_cwr3_eq_cons n] at hpair
  refine ⟨(List.pairwise_cons.1 hpair).2, ?_, by decide, by decide⟩
  intro t
  constructor
  · intro ht
    have hmem : t ∈ List.insertionSort keyLe (cwr3 n) := by
      rw [insertionSort_cwr3_eq_cons n]
      exact List.mem_cons_of_mem _ ht
    rw [List.mem_insertionSort, mem_cwr3] at hmem
    refine ⟨hmem.1, hmem.2.1, hmem.2.2.1, hmem.2.2.2, ?_⟩
    rintro rfl
    have hrel := (List.pairwise_cons.1 hpair).1 _ ht
    rcases hrel with h | ⟨h1, h2⟩
    · exact absurd h (by decide)
    · exact absurd h2 (by decide)
  · rintro ⟨h0, h12, h23, h3n, hne⟩
    have hmem : t ∈ List.insertionSort keyLe (cwr3 n) := by
      rw [List.mem_insertionSort, mem_cwr3]
      exact ⟨h0, h12, h23, h3n⟩
    rw [insertionSort_cwr3_eq_cons n] at hmem
    rcases List.mem_cons.1 hmem with h | h
    · exact absurd h hne
    · exact h

theorem possible_pairs_eq_filter (ps : List CrystalPlane) (space_ratio : ENNReal) :
    possible_pairs ps space_ratio = (combinations2 ps).filter fun pq =>
      @decide (ratioBand space_ratio
        (CrystalPlane.get_d_spacing pq.1 / CrystalPlane.get_d_spacing pq.2))
        (Classical.propDecidable _) := by
  unfold possible_pairs get_d_ratio_list
  rw [List.filter_map, List.map_map]
  have hcomp : (Prod.snd ∘ fun pair : CrystalPlane × CrystalPlane =>
      (CrystalPlane.get_d_spacing pair.1 / CrystalPlane.get_d_spacing pair.2, pair)) = id :=
    rfl
  rw [hcomp, List.map_id]
  rfl

theorem filterMap_filter {α β : Type} (p : α → Bool) (f : α → Option β) (l : List α) :
    (l.filter p).filterMap f = l.filterMap fun a => if p a = true then f a else none := by
  induction l with
  | nil => rfl
  | cons a l ih =>
    cases ha : p a with
    | true =>
      rw [List.filter_cons_of_pos ha, List.filterMap_cons, List.filterMap_cons, ih, ha]
      simp
    | false =>
      rw [List.filter_cons_of_neg (by simp [ha]), List.filterMap_cons, ih, ha]
      simp

theorem d_spacing_div (p q : CrystalPlane) (hp : 0 < CrystalPlane.sqSum p)
    (hq : 0 < CrystalPlane.sqSum q) :
    CrystalPlane.get_d_spacing p / CrystalPlane.get_d_spacing q =
      ENNReal.ofReal (Real.sqrt ((CrystalPlane.sqSum q : ℝ)) /
        Real.sqrt ((CrystalPlane.sqSum p : ℝ))) := by
  have hp' : (0:ℝ) < Real.sqrt ((CrystalPlane.sqSum p : ℝ)) :=
    Real.sqrt_pos.2 (by exact_mod_cast hp)
  rw [get_d_spacing_eq_sqrt, get_d_spacing_eq_sqrt, one_div, one_div,
    div_eq_mul_inv, inv_inv, mul_comm, ← div_eq_mul_inv,
    ENNReal.ofReal_div_of_pos hp']

theorem angle_111_004_lt_66 :
    CrystalPlane.angle_between (CrystalPlane.mk 1 1 1) (CrystalPlane.mk 0 0 4) < 66 := by
  have hs3 : (0:ℝ) < Real.sqrt 3 := Real.sqrt_pos.2 (by norm_num)
  have hsq3 : Real.sqrt 3 ^ 2 = 3 := Real.sq_sqrt (by norm_num)
  have hcos : dotv (unit_vector (CrystalPlane.planenormal (CrystalPlane.mk 1 1 1)))
      (unit_vector (CrystalPlane.planenormal (CrystalPlane.mk 0 0 4))) = 1 / Real.sqrt 3 := by
    have h16 : Real.sqrt ((0:ℝ) * 0 + 0 * 0 + 4 * 4) = 4 := by
      rw [show ((0:ℝ) * 0 + 0 * 0 + 4 * 4) = 4 ^ 2 by norm_num, Real.sqrt_sq (by norm_num)]
    have h3 : ((1:ℝ) * 1 + 1 * 1 + 1 * 1) = 3 := by norm_num
    unfold unit_vector normv dotv CrystalPlane.planenormal
    push_cast
    rw [h3, h16]
    field_simp
  have h1le : (1:ℝ) ≤ Real.sqrt 3 := (Real.le_sqrt (by norm_num) (by norm_num)).2 (by norm_num)
  have hle1 : 1 / Real.sqrt 3 ≤ 1 := by
    rw [div_le_one hs3]
    exact h1le
  have hclip : clip1 (1 / Real.sqrt 3) = 1 / Real.sqrt 3 := by
    unfold clip1
    rw [max_eq_left (le_trans (by norm_num : (-1:ℝ) ≤ 0) (by positivity)),
      min_eq_left hle1]
  have h12 : (1:ℝ) / 2 ≤ 1 / Real.sqrt 3 := by
    rw [div_le_div_iff (by norm_num) hs3]
    nlinarith [hsq3, Real.sqrt_nonneg 3]
  have harc : Real.arccos (1 / Real.sqrt 3) ≤ Real.pi / 3 := by
    have hc : Real.arccos (1 / 2) = Real.pi / 3 := by
      rw [← Real.cos_pi_div_three]
      exact Real.arccos_cos (by positivity) (by linarith [Real.pi_pos])
    have hstep : Real.arccos (1 / Real.sqrt 3) ≤ Real.arccos (1 / 2) := by
      rw [Real.arccos_eq_pi_div_two_sub_arcsin, Real.arccos_eq_pi_div_two_sub_arcsin]
      have := Real.monotone_arcsin h12
      linarith
    linarith [hstep, hc.le, hc.ge]
  unfold CrystalPlane.angle_between
  rw [hcos, hclip]
  have h60 : Real.pi / 3 * (180 / Real.pi) = 60 := by
    have hpi : Real.pi ≠ 0 := ne_of_gt Real.pi_pos
    field_simp
    ring
  have hmul : Real.arccos (1 / Real.sqrt 3) * (180 / Real.pi) ≤
      Real.pi / 3 * (180 / Real.pi) :=
    mul_le_mul_of_nonneg_right harc (by positivity)
  rw [h60] at hmul
  linarith

theorem d_ratio_band_111_004 :
    ratioBand (ENNReal.ofReal (28.93 / 11.11))
      (CrystalPlane.get_d_spacing (CrystalPlane.mk 1 1 1) /
        CrystalPlane.get_d_spacing (CrystalPlane.mk 0 0 4)) := by
  have hdiv := d_spacing_div (CrystalPlane.mk 1 1 1) (CrystalPlane.mk 0 0 4)
    (by decide) (by decide)
  norm_num [CrystalPlane.sqSum] at hdiv
  have hsq : Real.sqrt 16 / Real.sqrt 3 = Real.sqrt (16 / 3) := by
    rw [Real.sqrt_div (by norm_num) 3]
  unfold ratioBand
  rw [hdiv]
  constructor
  · rw [← ENNReal.ofReal_mul (by norm_num),
      ENNReal.ofReal_lt_ofReal_iff (by positivity), hsq]
    exact (Real.lt_sqrt (by norm_num)).2 (by norm_num)
  · rw [← ENNReal.ofReal_mul (by norm_num),
      ENNReal.ofReal_lt_ofReal_iff (by norm_num), hsq]
    exact (Real.sqrt_lt' (by norm_num)).2 (by norm_num)

theorem matchOf_66_111_004 :
    matchOf 66 (CrystalPlane.mk 1 1 1, CrystalPlane.mk 0 0 4) =
      some (MatchResult.mk (CrystalPlane.mk 1 1 1) (CrystalPlane.mk 0 0 4) (4, -4, 0)) := by
  have hrest : CrystalPlane.get_equivalent_planes (CrystalPlane.mk 0 0 4) =
      CrystalPlane.mk 0 0 4 ::
        (CrystalPlane.get_equivalent_planes (CrystalPlane.mk 0 0 4)).tail := by decide
  unfold matchOf
  dsimp only
  have hfind : List.find?
      (fun v2 => @decide (CrystalPlane.angle_between (CrystalPlane.mk 1 1 1) v2 < 66)
        (Classical.propDecidable _))
      (CrystalPlane.mk 0 0 4 ::
        (CrystalPlane.get_equivalent_planes (CrystalPlane.mk 0 0 4)).tail) =
      some (CrystalPlane.mk 0 0 4) :=
    List.find?_cons_of_pos _
      (@decide_eq_true _ (Classical.propDecidable _) angle_111_004_lt_66)
  rw [hrest, hfind]
  rfl

theorem find_pairs_fcc8_ne_nil :
    find_pairs_list
      [CrystalPlane.mk 1 1 1, CrystalPlane.mk 0 0 2, CrystalPlane.mk 0 2 2,
        CrystalPlane.mk 1 1 3, CrystalPlane.mk 2 2 2, CrystalPlane.mk 0 0 4,
        CrystalPlane.mk 1 3 3, CrystalPlane.mk 0 2 4]
      (ENNReal.ofReal (28.93 / 11.11)) 66 ≠ [] := by
  intro hnil
  unfold find_pairs_list at hnil
  rw [List.filterMap_eq_nil_iff] at hnil
  have hmem : (CrystalPlane.mk 1 1 1, CrystalPlane.mk 0 0 4) ∈
      possible_pairs
        [CrystalPlane.mk 1 1 1, CrystalPlane.mk 0 0 2, CrystalPlane.mk 0 2 2,
          CrystalPlane.mk 1 1 3, CrystalPlane.mk 2 2 2, CrystalPlane.mk 0 0 4,
          CrystalPlane.mk 1 3 3, CrystalPlane.mk 0 2 4]
        (ENNReal.ofReal (28.93 / 11.11)) := by
    rw [possible_pairs_eq_filter, List.mem_filter]
    exact ⟨by decide, @decide_eq_true _ (Classical.propDecidable _) d_ratio_band_111_004⟩
  have hnone := hnil _ hmem
  rw [matchOf_66_111_004] at hnone
  cases hnone

/-- C5: the pair retention of find_pairs keeps exactly the pairs of the
combinations enumeration over the plane sequence whose d-spacing quotient
first/second lies strictly between space_ratio * 0.8 and space_ratio * 1.2;
both inequalities are strict, so a quotient exactly at a band edge is
rejected. -/
theorem C5_band_retention (ps : List CrystalPlane) (space_ratio : ENNReal)
    (pq : CrystalPlane × CrystalPlane) :
    pq ∈ possible_pairs ps space_ratio ↔
      pq ∈ combinations2 ps ∧
      space_ratio * ENNReal.ofReal 0.8 <
        CrystalPlane.get_d_spacing pq.1 / CrystalPlane.get_d_spacing pq.2 ∧
      CrystalPlane.get_d_spacing pq.1 / CrystalPlane.get_d_spacing pq.2 <
        space_ratio * ENNReal.ofReal 1.2 := by
  rw [possible_pairs_eq_filter, List.mem_filter]
  simp only [decide_eq_true_eq]
  exact Iff.rfl

/-- C2: find_pairs emits an ordered sequence of MatchResult records whose
order mirrors the combinations enumeration over the lattice's plane sequence,
one optional scan outcome per enumerated pair with the band test folded in;
the embedding is a pure function of its inputs, so the output is identical on
every run with the same inputs; and on the FaceCentered lattice of order 8
with target ratio 28.93 / 11.11 and angle threshold 66 degrees the produced
sequence exists and is non-empty. -/
theorem C2_find_pairs_output (ps : List CrystalPlane) (r : ENNReal) (angle : ℝ) :
    (find_pairs_list ps r angle = (combinations2 ps).filterMap fun pq =>
      if (@decide (ratioBand r (CrystalPlane.get_d_spacing pq.1 /
            CrystalPlane.get_d_spacing pq.2)) (Classical.propDecidable _)) = true
      then matchOf angle pq else none) ∧
    ∃ ms, Crystal.find_pairs (Crystal.make CrystalSystem.FCC 8)
        (ENNReal.ofReal (28.93 / 11.11)) 66 = some ms ∧ ms ≠ [] := by
  constructor
  · unfold find_pairs_list
    rw [possible_pairs_eq_filter, filterMap_filter]
  · refine ⟨find_pairs_list
      [CrystalPlane.mk 1 1 1, CrystalPlane.mk 0 0 2, CrystalPlane.mk 0 2 2,
        CrystalPlane.mk 1 1 3, CrystalPlane.mk 2 2 2, CrystalPlane.mk 0 0 4,
        CrystalPlane.mk 1 3 3, CrystalPlane.mk 0 2 4]
      (ENNReal.ofReal (28.93 / 11.11)) 66, ?_, find_pairs_fcc8_ne_nil⟩
    unfold Crystal.find_pairs Crystal.make
    rw [show get_planes CrystalSystem.FCC 8 = some
      [CrystalPlane.mk 1 1 1, CrystalPlane.mk 0 0 2, CrystalPlane.mk 0 2 2,
        CrystalPlane.mk 1 1 3, CrystalPlane.mk 2 2 2, CrystalPlane.mk 0 0 4,
        CrystalPlane.mk 1 3 3, CrystalPlane.mk 0 2 4] from by decide]
    rfl

theorem find?_split {α : Type} {p : α → Bool} {l : List α} {a : α}
    (h : l.find? p = some a) :
    ∃ pre post, l = pre ++ a :: post ∧ ∀ x ∈ pre, p x = false := by
  induction l with
  | nil => cases h
  | cons b l ih =>
    cases hb : p b with
    | true =>
      rw [List.find?_cons_of_pos _ hb] at h
      cases h
      exact ⟨[], l, rfl, by simp⟩
    | false =>
      rw [List.find?_cons_of_neg _ (by simp [hb])] at h
      obtain ⟨pre, post, hl, hpre⟩ := ih h
      refine ⟨b :: pre, post, by rw [hl]; rfl, ?_⟩
      intro x hx
      rcases List.mem_cons.1 hx with rfl | hx2
      · exact hb
      · exact hpre x hx2

/-- C4: for each retained pair the orbit of the second plane is scanned in its
fixed enumeration order; a produced match consists of the first plane, the
first orbit member whose angle to it is strictly below the threshold (every
earlier orbit member fails the test), and their zone axis; if no orbit member
passes, the pair produces nothing; and find_pairs yields at most one match per
retained pair. -/
theorem C4_first_match_per_pair (angle : ℝ) (p1 p2 : CrystalPlane) :
    (∀ m : MatchResult, matchOf angle (p1, p2) = some m →
      m.plane1 = p1 ∧ CrystalPlane.angle_between p1 m.plane2 < angle ∧
      m.zone = CrystalPlane.get_zone_axis p1 m.plane2 ∧
      ∃ pre post, CrystalPlane.get_equivalent_planes p2 = pre ++ m.plane2 :: post ∧
        ∀ q ∈ pre, ¬ CrystalPlane.angle_between p1 q < angle) ∧
    (matchOf angle (p1, p2) = none ↔
      ∀ q ∈ CrystalPlane.get_equivalent_planes p2,
        ¬ CrystalPlane.angle_between p1 q < angle) ∧
    (∀ ps r, (find_pairs_list ps r angle).length ≤ (possible_pairs ps r).length) := by
  refine ⟨?_, ?_, ?_⟩
  · intro m hm
    unfold matchOf at hm
    rcases Option.map_eq_some'.1 hm with ⟨v2, hfind, rfl⟩
    have hp := List.find?_some hfind
    obtain ⟨pre, post, hl, hpre⟩ := find?_split hfind
    refine ⟨rfl, ?_, rfl, ?_⟩
    · exact of_decide_eq_true hp
    · exact ⟨pre, post, hl, fun q hq => of_decide_eq_false (hpre q hq)⟩
  · unfold matchOf
    rw [Option.map_eq_none', List.find?_eq_none]
    constructor
    · intro hnone q hq
      have := hnone q hq
      simpa using this
    · intro hall q hq
      simpa using hall q hq
  · intro ps r
    exact List.length_filterMap_le _ _

theorem C4_first_match_per_pair_witness :
    (MatchResult.mk (CrystalPlane.mk 1 1 1) (CrystalPlane.mk 0 0 4) (4, -4, 0)).plane1 =
      CrystalPlane.mk 1 1 1 ∧
    CrystalPlane.angle_between (CrystalPlane.mk 1 1 1)
      (MatchResult.mk (CrystalPlane.mk 1 1 1) (CrystalPlane.mk 0 0 4) (4, -4, 0)).plane2 < 66 ∧
    (MatchResult.mk (CrystalPlane.mk 1 1 1) (CrystalPlane.mk 0 0 4) (4, -4, 0)).zone =
      CrystalPlane.get_zone_axis (CrystalPlane.mk 1 1 1)
        (MatchResult.mk (CrystalPlane.mk 1 1 1) (CrystalPlane.mk 0 0 4) (4, -4, 0)).plane2 ∧
    ∃ pre post, CrystalPlane.get_equivalent_planes (CrystalPlane.mk 0 0 4) =
      pre ++ (MatchResult.mk (CrystalPlane.mk 1 1 1) (CrystalPlane.mk 0 0 4)
        (4, -4, 0)).plane2 :: post ∧
      ∀ q ∈ pre, ¬ CrystalPlane.angle_between (CrystalPlane.mk 1 1 1) q < 66 :=
  (C4_first_match_per_pair 66 (CrystalPlane.mk 1 1 1) (CrystalPlane.mk 0 0 4)).1
    (MatchResult.mk (CrystalPlane.mk 1 1 1) (CrystalPlane.mk 0 0 4) (4, -4, 0))
    matchOf_66_111_004
